import Mathlib

/-!
Verification development for the node-ignore benchmark repository.

The visible source (`src/benchmark.js`) is a timing harness driving an
opaque gitignore-style matching engine through `add`, `ignores`, `test`
and `filter`.  The engine itself is not part of the visible source, so it
is modelled here from the specification (pattern compiler, path
normalizer, rule-set evaluator, bounded caches, public facade).  The
harness's `benchmark` function is embedded directly from the source.
-/

namespace NodeIgnore

/-! ## Pattern compiler: glob tokens -/

/-- Modelled from the spec: one item of a `[...]` character class, either a
single character or a range (§4.1 "standard set semantics"). -/
inductive ClsItem where
  | ch (c : Char)
  | range (a b : Char)
deriving DecidableEq, Repr

/-- Modelled from the spec: one within-segment matcher token (§4.1): a
literal character, `*` (any run of characters excluding `/`), `?` (exactly
one character excluding `/`), or a character class. -/
inductive Tok where
  | lit (c : Char)
  | star
  | qmark
  | cls (neg : Bool) (items : List ClsItem)
deriving DecidableEq, Repr

/-- Modelled from the spec: parse the items of a character class after the
opening `[` and optional negation marker, up to the closing `]`.  Returns
`none` when the class is unterminated (the caller then treats `[` as a
literal, per the permissive-compilation requirement of §4.1). -/
def parseClsItems : List Char → Option (List ClsItem × List Char)
  | [] => none
  | ']' :: rest => some ([], rest)
  | a :: '-' :: ']' :: rest => some ([ClsItem.ch a, ClsItem.ch '-'], rest)
  | a :: '-' :: b :: rest =>
    (parseClsItems rest).map (fun p => (ClsItem.range a b :: p.1, p.2))
  | a :: rest =>
    (parseClsItems rest).map (fun p => (ClsItem.ch a :: p.1, p.2))

/-- Modelled from the spec: parse a character class starting just after the
opening `[`, handling an optional leading negation marker `!` or `^`
(§4.1 "negated class via [!...] or [^...]"). -/
def parseClsFrom (rest : List Char) : Option (Bool × List ClsItem × List Char) :=
  match rest with
  | '!' :: r => (parseClsItems r).map (fun p => (true, p.1, p.2))
  | '^' :: r => (parseClsItems r).map (fun p => (true, p.1, p.2))
  | _ => (parseClsItems rest).map (fun p => (false, p.1, p.2))

def parseToksF : Nat → List Char → List Tok
  | _, [] => []
  | 0, _ :: _ => []
  | f + 1, c :: rest =>
    if c = '\\' then
      match rest with
      | c2 :: rest2 => Tok.lit c2 :: parseToksF f rest2
      | [] => [Tok.lit '\\']
    else if c = '[' then
      match parseClsFrom rest with
      | some (neg, items, rest') => Tok.cls neg items :: parseToksF f rest'
      | none => Tok.lit '[' :: parseToksF f rest
    else if c = '*' then Tok.star :: parseToksF f rest
    else if c = '?' then Tok.qmark :: parseToksF f rest
    else Tok.lit c :: parseToksF f rest

/-- Modelled from the spec: translate the text of one pattern segment into
matcher tokens via the fuelled worker, with fuel equal to the input
length (always sufficient: every step consumes at least one character). -/
def parseToks (cs : List Char) : List Tok :=
  parseToksF cs.length cs

/-- Modelled from the spec: whether a character is matched by one class item. -/
def matchClsItem (c : Char) : ClsItem → Bool
  | ClsItem.ch a => c = a
  | ClsItem.range a b => a ≤ c && c ≤ b

/-- Modelled from the spec: whether a character is matched by a (possibly
negated) character class (§4.1). -/
def matchCls (neg : Bool) (items : List ClsItem) (c : Char) : Bool :=
  let m := items.any (matchClsItem c)
  if neg then !m else m

/-- Modelled from the spec: match a token list against the characters of one
path segment (§4.1): `*` matches any run of characters, `?` exactly one,
literals and classes one character each.  Segments contain no `/`, so the
exclude-`/` side conditions of §4.1 hold by construction. -/
def matchGlob : List Tok → List Char → Bool
  | [], cs => cs.isEmpty
  | Tok.star :: ts', cs => cs.tails.any (fun suf => matchGlob ts' suf)
  | Tok.lit a :: ts', cs =>
    (match cs with
     | c :: cs' => a = c && matchGlob ts' cs'
     | [] => false)
  | Tok.qmark :: ts', cs =>
    (match cs with
     | _ :: cs' => matchGlob ts' cs'
     | [] => false)
  | Tok.cls neg items :: ts', cs =>
    (match cs with
     | c :: cs' => matchCls neg items c && matchGlob ts' cs'
     | [] => false)

/-- Modelled from the spec: one `/`-delimited pattern segment — either the
globstar `**` (matches zero or more whole path segments, §4.1) or a glob
over one segment's characters. -/
inductive Seg where
  | gstar
  | glob (ts : List Tok)
deriving DecidableEq, Repr

/-- Modelled from the spec: match a list of pattern segments against a list
of path segments (§4.1): `**` consumes zero or more whole segments, a glob
segment consumes exactly one matching segment. -/
def matchSegs : List Seg → List (List Char) → Bool
  | [], ps => ps.isEmpty
  | Seg.gstar :: ss', ps => ps.tails.any (fun suf => matchSegs ss' suf)
  | Seg.glob ts :: ss', ps =>
    (match ps with
     | p :: ps' => matchGlob ts p && matchSegs ss' ps'
     | [] => false)

/-! ## Pattern compiler: rules -/

/-- Modelled from the spec: a compiled rule (§3 CompiledRule): negation flag,
directory-only flag, anchoring flag, the segment matcher, and the
originating pattern text kept for the `test` diagnostic echo (§4.5). -/
structure Rule where
  negated : Bool
  directoryOnly : Bool
  anchored : Bool
  segs : List Seg
  pattern : List Char
deriving DecidableEq, Repr

/-- Modelled from the spec: drop trailing whitespace from a pattern line
(§4.1 "Trim trailing whitespace"). -/
def trimTrailingWS (cs : List Char) : List Char :=
  (cs.reverse.dropWhile (fun c => c.isWhitespace)).reverse

/-- Modelled from the spec: split a character list at `/` separators.  Used
both for pattern bodies and for paths; empty pieces around duplicate or
edge separators are produced and later discarded. -/
def splitChars (cs : List Char) : List (List Char) :=
  match cs with
  | [] => [[]]
  | c :: rest =>
    if c = '/' then [] :: splitChars rest
    else
      match splitChars rest with
      | [] => [[c]]
      | s :: r => (c :: s) :: r

/-- Modelled from the spec: detect a `/` occurring before the first wildcard
character (§4.1 anchoring detection); escaped characters are skipped. -/
def hasSlashBeforeWildcard (cs : List Char) : Bool :=
  match cs with
  | [] => false
  | '\\' :: _ :: rest => hasSlashBeforeWildcard rest
  | c :: rest =>
    if c = '/' then true
    else if c = '*' || c = '?' || c = '[' then false
    else hasSlashBeforeWildcard rest

/-- Modelled from the spec: strip a trailing unescaped `/`
(§4.1 directory-only detection). -/
def stripTrailingSlash (cs : List Char) : Bool × List Char :=
  match cs.reverse with
  | '/' :: r =>
    match r with
    | '\\' :: _ => (false, cs)
    | _ => (true, r.reverse)
  | _ => (false, cs)

/-- Modelled from the spec: compile one pattern segment — `**` becomes a
globstar, anything else a character glob (§4.1). -/
def compileSeg (cs : List Char) : Seg :=
  if cs = ['*', '*'] then Seg.gstar else Seg.glob (parseToks cs)

/-- Modelled from the spec: compile a trimmed, non-blank, non-comment
pattern line into a rule (§4.1): strip leading `!` (negation), strip a
trailing unescaped `/` (directory-only), detect anchoring (leading `/` or
a `/` before the first wildcard), and compile the `/`-split body. -/
def compileRule (cs : List Char) : Rule :=
  let negated := cs.head? = some '!'
  let body0 := if negated then cs.tail else cs
  let (directoryOnly, body1) := stripTrailingSlash body0
  let lead := body1.head? = some '/'
  let body2 := if lead then body1.tail else body1
  let anchored := lead || hasSlashBeforeWildcard body2
  { negated := negated
    directoryOnly := directoryOnly
    anchored := anchored
    segs := (splitChars body2).map compileSeg
    pattern := cs }

/-- Modelled from the spec: what `add` does with one raw line (§4.5, §6):
trim trailing whitespace; a blank line or one starting with `#` is not a
rule; otherwise compile.  Pure function of the raw line text. -/
def parseLine (raw : List Char) : Option Rule :=
  let t := trimTrailingWS raw
  if t = [] ∨ t.head? = some '#' then none
  else some (compileRule t)

/-! ## Path normalizer -/

/-- Modelled from the spec: a normalized path (§4.2): a sequence of
non-empty segments, a leading-slash flag and a trailing-slash
(directory) flag. -/
structure NPath where
  lead : Bool
  segs : List (List Char)
  isDir : Bool
deriving DecidableEq, Repr

/-- Modelled from the spec: the error raised on parent-escaping path input
(§4.2, §7 "fails with InvalidPathError"). -/
inductive NormError where
  | invalidPathError
deriving DecidableEq, Repr

/-- Modelled from the spec: process raw path segments left to right against
a stack of kept segments: empty and `.` segments are dropped, `..` pops
the stack and is a parent-escape error on an empty stack (§4.2). -/
def normAux (acc : List (List Char)) : List (List Char) → Except NormError (List (List Char))
  | [] => Except.ok acc.reverse
  | s :: rest =>
    if s = [] ∨ s = ['.'] then normAux acc rest
    else if s = ['.', '.'] then
      if acc = [] then Except.error NormError.invalidPathError
      else normAux acc.tail rest
    else normAux (s :: acc) rest

/-- Modelled from the spec: normalize a path given as characters (§4.2):
split at `/`, record the leading- and trailing-slash flags, drop empty and
`.` segments, resolve `..` against the stack, and reject parent escapes. -/
def normalizeChars (cs : List Char) : Except NormError NPath :=
  let lead := cs.head? = some '/'
  let rawDir := cs.getLast? = some '/'
  (normAux [] (splitChars cs)).map
    (fun segs => { lead := lead, segs := segs, isDir := rawDir && !segs.isEmpty })

/-- Modelled from the spec: `normalize(path: string) -> NormalizedPath`
(§4.2). -/
def normalize (p : String) : Except NormError NPath :=
  normalizeChars p.data

/-- Modelled from the spec: join segments back with `/` separators. -/
def joinSegs : List (List Char) → List Char
  | [] => []
  | s :: rest =>
    match rest with
    | [] => s
    | _ :: _ => s ++ '/' :: joinSegs rest

/-- Modelled from the spec: re-serialize a normalized path to its canonical
`/`-separated string form (§4.2 "the default and canonical form is
`/`-separated"). -/
def serializeChars (n : NPath) : List Char :=
  (if n.lead then ['/'] else []) ++ joinSegs n.segs ++ (if n.isDir then ['/'] else [])

/-- Modelled from the spec: string-level re-serialization of a normalized
path. -/
def serialize (n : NPath) : String :=
  String.mk (serializeChars n)

/-- Modelled from the spec: a path is parent-escaping when scanning its raw
segments with a depth counter — `..` decrements, `.` and empty segments
are neutral, others increment — would drive the depth below zero (§4.2). -/
def escAux (d : Nat) : List (List Char) → Bool
  | [] => false
  | s :: rest =>
    if s = [] ∨ s = ['.'] then escAux d rest
    else if s = ['.', '.'] then
      if d = 0 then true else escAux (d - 1) rest
    else escAux (d + 1) rest

/-- Modelled from the spec: whether a path string traverses above the
matching root (§4.2 "Reject absolute escapes"). -/
def escapesRoot (p : String) : Bool :=
  escAux 0 (splitChars p.data)

/-! ## Rule set evaluator -/

/-- Modelled from the spec: the non-empty strict prefixes of a segment list,
shortest first — the ancestor directories of a path (§4.3). -/
def ancestors : List (List Char) → List (List (List Char))
  | [] => []
  | [_] => []
  | s :: rest => [s] :: (ancestors rest).map (fun q => s :: q)

/-- Modelled from the spec: whether one rule's matcher accepts a normalized
path (§4.3): a directory-only rule only accepts directory paths (§4.3
step 2); an unanchored rule is implicitly prefixed by any number of
leading segments (§4.1), an anchored rule matches from the root (§4.1). -/
def ruleMatches (r : Rule) (segs : List (List Char)) (isDir : Bool) : Bool :=
  (!r.directoryOnly || isDir) &&
    matchSegs (if r.anchored then r.segs else Seg.gstar :: r.segs) segs

/-- Modelled from the spec: the last rule in insertion order whose matcher
accepts the path (§4.3 steps 1 and 4: the most-recently-added matching
rule wins). -/
def directLastMatch (rules : List Rule) (segs : List (List Char)) (isDir : Bool) :
    Option Rule :=
  rules.foldl (fun acc r => if ruleMatches r segs isDir then some r else acc) none

/-- Modelled from the spec: whether the path, considered on its own, is
ignored: its deciding (last matching) rule exists and is not negated
(§4.3 steps 1, 4, 5). -/
def directIgnored (rules : List Rule) (segs : List (List Char)) (isDir : Bool) : Bool :=
  match directLastMatch rules segs isDir with
  | some r => !r.negated
  | none => false

/-- Modelled from the spec: whether some ancestor directory of the path is
itself ignored (§4.3 steps 2 and 3: directory exclusion blocks negated
children; an explicit ancestor-directory check, §9). -/
def ancestorIgnored (rules : List Rule) (segs : List (List Char)) : Bool :=
  (ancestors segs).any (fun q => directIgnored rules q true)

/-- Modelled from the spec: the decision record produced by evaluation
(§4.3, §4.5 `test`): the ignore verdict, whether the path was re-included
by an effective negation, and the deciding rule's pattern text. -/
structure Decision where
  ignored : Bool
  unignored : Bool
  rulePat : Option (List Char)
deriving DecidableEq, Repr

/-- Modelled from the spec: evaluate a normalized path against the rule set
(§4.3): a path is ignored when an ancestor directory is ignored or its own
last matching rule is non-negated; negation is effective only when no
ancestor is ignored (§4.3 step 3); no matching rule means not ignored
(§4.3 step 5). -/
def evaluate (rules : List Rule) (np : NPath) : Decision :=
  let dm := directLastMatch rules np.segs np.isDir
  let anc := ancestorIgnored rules np.segs
  let own := match dm with
    | some r => !r.negated
    | none => false
  let ign := anc || own
  { ignored := ign
    unignored := !ign && (match dm with
      | some r => r.negated
      | none => false)
    rulePat := dm.map (fun r => r.pattern) }

/-! ## Cache layer and public facade -/

/-- Modelled from the spec: the facade state (§2, §3): the ordered rule set,
the compiled-rule cache keyed by raw pattern text (FIFO list, oldest
first), the bounded result cache keyed by normalized path (FIFO list,
oldest first), and the result-cache capacity. -/
structure Facade where
  rules : List Rule
  patCache : List (List Char × Rule)
  resCache : List (NPath × Decision)
  capacity : Nat

/-- Modelled from the spec: a fresh, empty facade (§3 "Facade is created
empty") with the given result-cache capacity (§4.4, e.g. 1000). -/
def emptyFacade (capacity : Nat) : Facade :=
  { rules := [], patCache := [], resCache := [], capacity := capacity }

/-- Association-list lookup used by both caches. -/
def alookup {α β : Type} [DecidableEq α] : List (α × β) → α → Option β
  | [], _ => none
  | (k, v) :: rest, k' => if k = k' then some v else alookup rest k'

/-- Modelled from the spec: the pure compilation of one raw line: trim
trailing whitespace, then compile (§4.1); CompiledRuleCache entries are
values of this function at their key (§3 invariant). -/
def compileLine (raw : List Char) : Rule :=
  compileRule (trimTrailingWS raw)

/-- Modelled from the spec: `CompiledRuleCache.getOrCompile` (§4.4): on hit
return the cached rule, on miss compile the line and insert.  Keys are the
raw pattern text (§3); no eviction (§4.4). -/
def getOrCompile (st : Facade) (raw : List Char) : Rule × Facade :=
  match alookup st.patCache raw with
  | some r => (r, st)
  | none =>
    let r := compileLine raw
    (r, { st with patCache := st.patCache ++ [(raw, r)] })

/-- Modelled from the spec: `add` for one pattern line (§4.5): skip blank
and comment lines; otherwise fetch or compile the rule and append it to
the rule set; every `add` invalidates the ResultCache entirely (§3, §4.4). -/
def addLine (st : Facade) (raw : String) : Facade :=
  let t := trimTrailingWS raw.data
  if t = [] ∨ t.head? = some '#' then { st with resCache := [] }
  else
    let (r, st1) := getOrCompile st raw.data
    { st1 with rules := st1.rules ++ [r], resCache := [] }

/-- Modelled from the spec: insert a decision into the bounded result cache
(§4.4): once full, the oldest inserted entry is evicted first (FIFO). -/
def insertRes (st : Facade) (np : NPath) (d : Decision) : Facade :=
  let c := if st.capacity ≤ st.resCache.length then st.resCache.drop 1 else st.resCache
  { st with resCache := c ++ [(np, d)] }

/-- Modelled from the spec: the cache-checked evaluation pipeline backing
`ignores` and `test` (§2, §4.4): normalize (propagating InvalidPathError
with no state change, §7), look up the result cache, on miss evaluate via
the rule set and insert. -/
def facadeTestD (st : Facade) (p : String) : Except NormError Decision × Facade :=
  match normalize p with
  | Except.error e => (Except.error e, st)
  | Except.ok np =>
    match alookup st.resCache np with
    | some d => (Except.ok d, st)
    | none =>
      let d := evaluate st.rules np
      (Except.ok d, insertRes st np d)

/-- Modelled from the spec: `ignores(path) -> bool` (§4.5). -/
def facadeIgnores (st : Facade) (p : String) : Except NormError Bool × Facade :=
  let (r, st') := facadeTestD st p
  (r.map (fun d => d.ignored), st')

/-- Modelled from the spec: the body of `filter` (§4.5): keep, in order,
exactly the inputs `ignores` rejects, threading the cache state. -/
def filterGo (st : Facade) : List String → List String × Facade
  | [] => ([], st)
  | p :: ps =>
    let (r, st1) := facadeIgnores st p
    let (rest, st2) := filterGo st1 ps
    match r with
    | Except.ok false => (p :: rest, st2)
    | _ => (rest, st2)

/-- Modelled from the spec: `filter(paths)` (§4.5, §7): if any input path is
invalid the call fails with InvalidPathError and leaves the facade
unchanged (no partial mutation on failure); otherwise it returns the
order-preserving subsequence of non-ignored inputs. -/
def facadeFilter (st : Facade) (ps : List String) : Except NormError (List String × Facade) :=
  if ps.all (fun p => (normalize p).isOk) then Except.ok (filterGo st ps)
  else Except.error NormError.invalidPathError

/-- Well-formedness of a facade state: every compiled-rule cache entry is
the compilation of its key, and every result-cache entry is the evaluation
of its key under the current rule set (§3, §4.4).  All reachable facade
states satisfy this. -/
def WF (st : Facade) : Prop :=
  (∀ k r, (k, r) ∈ st.patCache → r = compileLine k) ∧
  (∀ np d, (np, d) ∈ st.resCache → d = evaluate st.rules np)

/-- Modelled from the spec: the rule set of the cache-free reference —
every accepted pattern line recompiled directly from its raw text. -/
def refRules (pats : List String) : List Rule :=
  pats.filterMap (fun p => parseLine p.data)

/-- One interaction with the facade: `add` of one raw pattern line, an
`ignores` query, or a `test` query. -/
inductive Op where
  | add (s : String)
  | ig (p : String)
  | tst (p : String)

/-- The observable answer of one interaction. -/
inductive Out where
  | oAdd
  | oIg (r : Except NormError Bool)
  | oTst (r : Except NormError Decision)

/-- Run a sequence of interactions against the cached facade, collecting
the observable answers and the final state. -/
def runF (st : Facade) : List Op → List Out × Facade
  | [] => ([], st)
  | Op.add s :: ops =>
    let st1 := addLine st s
    let (os, st2) := runF st1 ops
    (Out.oAdd :: os, st2)
  | Op.ig p :: ops =>
    let (r, st1) := facadeIgnores st p
    let (os, st2) := runF st1 ops
    (Out.oIg r :: os, st2)
  | Op.tst p :: ops =>
    let (r, st1) := facadeTestD st p
    let (os, st2) := runF st1 ops
    (Out.oTst r :: os, st2)

/-- Modelled from the spec: the cache-free reference semantics: keep only
the list of raw pattern lines added so far; on every query recompile all
of them and evaluate the path directly, with no caches at all. -/
def runRef (pats : List String) : List Op → List Out
  | [] => []
  | Op.add s :: ops => Out.oAdd :: runRef (pats ++ [s]) ops
  | Op.ig p :: ops =>
    Out.oIg ((normalize p).map (fun np => (evaluate (refRules pats) np).ignored)) ::
      runRef pats ops
  | Op.tst p :: ops =>
    Out.oTst ((normalize p).map (fun np => evaluate (refRules pats) np)) ::
      runRef pats ops

/-! ## Benchmark harness (embedded from src/benchmark.js) -/

/-- The record returned by `benchmark` in src/benchmark.js.  The timing
fields (`duration`, `opsPerSec`, `avgTime`) derive from `performance.now`
wall-clock readings and are not modellable; the structural fields are
kept. -/
structure BenchResult where
  name : String
  iterations : Nat
deriving DecidableEq, Repr

/-- A counted `for` loop: run the body `n` times, threading state — the
shape of both loops in `benchmark` (src/benchmark.js lines 63-71). -/
def loopN {σ : Type} (fn : σ → σ) : Nat → σ → σ
  | 0, s => s
  | n + 1, s => loopN fn n (fn s)

/-- The `benchmark(name, fn, iterations)` harness from src/benchmark.js:
100 warmup invocations of `fn`, then `iterations` timed invocations, and
a result record carrying the name and the iteration count. -/
def benchmark {σ : Type} (name : String) (fn : σ → σ) (iterations : Nat) (s : σ) :
    BenchResult × σ :=
  let s1 := loopN fn 100 s
  let s2 := loopN fn iterations s1
  ({ name := name, iterations := iterations }, s2)

/-- A segment as produced by successful normalization: non-empty, not `.`,
not `..`, and containing no separator (§4.2). -/
def validSeg (s : List Char) : Prop :=
  s ≠ [] ∧ s ≠ ['.'] ∧ s ≠ ['.', '.'] ∧ '/' ∉ s

/-! ## General lemmas -/

theorem parseClsItems_length :
    ∀ cs items rest, parseClsItems cs = some (items, rest) →
      rest.length ≤ cs.length := by
  intro cs
  induction cs using parseClsItems.induct with
  | case1 => intro items rest h; simp [parseClsItems] at h
  | case2 rest =>
    intro items rest' h
    simp only [parseClsItems, Option.some.injEq, Prod.mk.injEq] at h
    simp [← h.2]
  | case3 a rest hne =>
    intro items rest' h
    simp only [parseClsItems, Option.some.injEq, Prod.mk.injEq] at h
    rw [← h.2]
    simp
    omega
  | case4 a b rest hb1 hb2 ih =>
    intro items rest' h
    rw [parseClsItems] at h
    case x_1 => exact hb1
    case x_2 => exact hb2
    cases hrec : parseClsItems rest with
    | none => rw [hrec] at h; simp at h
    | some p =>
      obtain ⟨i, r⟩ := p
      rw [hrec] at h
      simp only [Option.map] at h
      rw [Option.some.injEq, Prod.mk.injEq] at h
      have := ih i r hrec
      rw [← h.2]
      simp only [List.length_cons]
      omega
  | case5 a rest hne hx hy ih =>
    intro items rest' h
    rw [parseClsItems] at h
    case x_1 => exact hne
    case x_2 => exact hx
    case x_3 => exact hy
    cases hrec : parseClsItems rest with
    | none => rw [hrec] at h; simp at h
    | some p =>
      obtain ⟨i, r⟩ := p
      rw [hrec] at h
      simp only [Option.map] at h
      rw [Option.some.injEq, Prod.mk.injEq] at h
      have := ih i r hrec
      rw [← h.2]
      simp only [List.length_cons]
      omega

theorem parseClsFrom_length (rest : List Char) (neg : Bool) (items : List ClsItem)
    (rest' : List Char) (h : parseClsFrom rest = some (neg, items, rest')) :
    rest'.length ≤ rest.length := by
  unfold parseClsFrom at h
  split at h
  case h_1 r =>
    cases hrec : parseClsItems r with
    | none => rw [hrec] at h; simp at h
    | some p =>
      rw [hrec] at h
      obtain ⟨i, r2⟩ := p
      simp only [Option.map] at h
      rw [Option.some.injEq] at h
      have := parseClsItems_length r i r2 hrec
      have h2 : r2 = rest' := congrArg (fun t => t.2.2) h
      rw [← h2]
      simp only [List.length_cons]
      omega
  case h_2 r =>
    cases hrec : parseClsItems r with
    | none => rw [hrec] at h; simp at h
    | some p =>
      rw [hrec] at h
      obtain ⟨i, r2⟩ := p
      simp only [Option.map] at h
      rw [Option.some.injEq] at h
      have := parseClsItems_length r i r2 hrec
      have h2 : r2 = rest' := congrArg (fun t => t.2.2) h
      rw [← h2]
      simp only [List.length_cons]
      omega
  case h_3 =>
    cases hrec : parseClsItems rest with
    | none => rw [hrec] at h; simp at h
    | some p =>
      rw [hrec] at h
      obtain ⟨i, r2⟩ := p
      simp only [Option.map] at h
      rw [Option.some.injEq] at h
      have := parseClsItems_length rest i r2 hrec
      have h2 : r2 = rest' := congrArg (fun t => t.2.2) h
      rw [← h2]
      omega

/-- Modelled from the spec: translate the text of one `/`-delimited pattern
segment into matcher tokens (§4.1).  An escape `\c` — recognized or not —
is treated as the literal character `c`; a trailing lone backslash is a
literal backslash; an unterminated `[` is a literal `[` (permissive
compilation, §4.1 and §7). -/
theorem parseToksF_fuel :
    ∀ (f : Nat) (cs : List Char) (g : Nat), cs.length ≤ f → cs.length ≤ g →
      parseToksF f cs = parseToksF g cs := by
  intro f cs
  induction f, cs using parseToksF.induct with
  | case1 t => intro g _ _; cases t <;> cases g <;> rfl
  | case2 head tail => intro g h1 _; simp at h1
  | case3 f c2 rest2 ih =>
    intro g h1 h2
    simp only [List.length_cons, List.length_nil] at h1 h2
    obtain ⟨g', rfl⟩ : ∃ g', g = g' + 1 := ⟨g - 1, by omega⟩
    exact congrArg (fun l => Tok.lit c2 :: l) (ih g' (by omega) (by omega))
  | case4 f =>
    intro g _ hg2
    simp only [List.length_cons, List.length_nil] at hg2
    obtain ⟨g', rfl⟩ : ∃ g', g = g' + 1 := ⟨g - 1, by omega⟩
    rfl
  | case5 f rest neg items rest' hcls hne ih =>
    intro g h1 h2
    simp only [List.length_cons, List.length_nil] at h1 h2
    obtain ⟨g', rfl⟩ : ∃ g', g = g' + 1 := ⟨g - 1, by omega⟩
    have hl := parseClsFrom_length rest neg items rest' hcls
    have e1 : parseToksF f.succ ('[' :: rest) = Tok.cls neg items :: parseToksF f rest' := by
      simp only [parseToksF, hcls]
      simp
    have e2 : parseToksF (g' + 1) ('[' :: rest) = Tok.cls neg items :: parseToksF g' rest' := by
      simp only [parseToksF, hcls]
      simp
    rw [e1, e2]
    exact congrArg (fun l => Tok.cls neg items :: l) (ih g' (by omega) (by omega))
  | case6 f rest hnone hne ih =>
    intro g h1 h2
    simp only [List.length_cons, List.length_nil] at h1 h2
    obtain ⟨g', rfl⟩ : ∃ g', g = g' + 1 := ⟨g - 1, by omega⟩
    have e1 : parseToksF f.succ ('[' :: rest) = Tok.lit '[' :: parseToksF f rest := by
      simp only [parseToksF, hnone]
      simp
    have e2 : parseToksF (g' + 1) ('[' :: rest) = Tok.lit '[' :: parseToksF g' rest := by
      simp only [parseToksF, hnone]
      simp
    rw [e1, e2]
    exact congrArg (fun l => Tok.lit '[' :: l) (ih g' (by omega) (by omega))
  | case7 f rest h1 h2 ih =>
    intro g hx hy
    simp only [List.length_cons, List.length_nil] at hx hy
    obtain ⟨g', rfl⟩ : ∃ g', g = g' + 1 := ⟨g - 1, by omega⟩
    exact congrArg (fun l => Tok.star :: l) (ih g' (by omega) (by omega))
  | case8 f rest h1 h2 h3 ih =>
    intro g hx hy
    simp only [List.length_cons, List.length_nil] at hx hy
    obtain ⟨g', rfl⟩ : ∃ g', g = g' + 1 := ⟨g - 1, by omega⟩
    exact congrArg (fun l => Tok.qmark :: l) (ih g' (by omega) (by omega))
  | case9 f c rest h1 h2 h3 h4 ih =>
    intro g hx hy
    simp only [List.length_cons, List.length_nil] at hx hy
    obtain ⟨g', rfl⟩ : ∃ g', g = g' + 1 := ⟨g - 1, by omega⟩
    have e1 : parseToksF f.succ (c :: rest) = Tok.lit c :: parseToksF f rest := by
      simp only [parseToksF, if_neg h1, if_neg h2, if_neg h3, if_neg h4]
    have e2 : parseToksF (g' + 1) (c :: rest) = Tok.lit c :: parseToksF g' rest := by
      simp only [parseToksF, if_neg h1, if_neg h2, if_neg h3, if_neg h4]
    rw [e1, e2]
    exact congrArg (fun l => Tok.lit c :: l) (ih g' (by omega) (by omega))

theorem parseToks_escape (c : Char) (rest : List Char) :
    parseToks ('\\' :: c :: rest) = Tok.lit c :: parseToks rest := by
  show Tok.lit c :: parseToksF (rest.length + 1) rest = Tok.lit c :: parseToks rest
  exact congrArg (fun l => Tok.lit c :: l)
    (parseToksF_fuel (rest.length + 1) rest rest.length (by omega) (by omega))

theorem getOrCompile_rules (st : Facade) (raw : List Char) :
    ((getOrCompile st raw).2).rules = st.rules := by
  unfold getOrCompile
  cases alookup st.patCache raw <;> rfl

theorem alookup_mem {α β : Type} [DecidableEq α] :
    ∀ (l : List (α × β)) (k : α) (v : β), alookup l k = some v → (k, v) ∈ l := by
  intro l
  induction l with
  | nil => intro k v h; simp [alookup] at h
  | cons e rest ih =>
    intro k v h
    obtain ⟨k0, v0⟩ := e
    rw [alookup] at h
    by_cases hk : k0 = k
    · rw [if_pos hk] at h
      rw [Option.some.injEq] at h
      subst hk
      subst h
      exact List.mem_cons_self _ _
    · rw [if_neg hk] at h
      exact List.mem_cons_of_mem _ (ih k v h)

theorem getOrCompile_fst (st : Facade) (raw : List Char)
    (hpat : ∀ k r, (k, r) ∈ st.patCache → r = compileLine k) :
    (getOrCompile st raw).1 = compileLine raw := by
  unfold getOrCompile
  cases hl : alookup st.patCache raw with
  | none => rfl
  | some r => exact hpat raw r (alookup_mem _ _ _ hl)

theorem getOrCompile_patWF (st : Facade) (raw : List Char)
    (hpat : ∀ k r, (k, r) ∈ st.patCache → r = compileLine k) :
    ∀ k r, (k, r) ∈ ((getOrCompile st raw).2).patCache → r = compileLine k := by
  unfold getOrCompile
  cases hl : alookup st.patCache raw with
  | some r0 => exact hpat
  | none =>
    intro k r hm
    simp only [] at hm
    rw [List.mem_append] at hm
    cases hm with
    | inl hmm => exact hpat k r hmm
    | inr hmm =>
      simp at hmm
      rw [hmm.1, hmm.2]

theorem getOrCompile_resCache (st : Facade) (raw : List Char) :
    ((getOrCompile st raw).2).resCache = st.resCache := by
  unfold getOrCompile
  cases alookup st.patCache raw <;> rfl

theorem addLine_rules (st : Facade) (raw : String)
    (hpat : ∀ k r, (k, r) ∈ st.patCache → r = compileLine k) :
    (addLine st raw).rules = st.rules ++ (parseLine raw.data).toList := by
  simp only [addLine, parseLine]
  by_cases hc : trimTrailingWS raw.data = [] ∨ (trimTrailingWS raw.data).head? = some '#'
  · rw [if_pos hc, if_pos hc]
    simp
  · rw [if_neg hc, if_neg hc]
    have h1 := getOrCompile_rules st raw.data
    have h2 := getOrCompile_fst st raw.data hpat
    rcases hg : getOrCompile st raw.data with ⟨r, st1⟩
    rw [hg] at h1 h2
    simp only [] at h1 h2
    simp [h1, h2, compileLine]

theorem addLine_WF (st : Facade) (raw : String) (h : WF st) : WF (addLine st raw) := by
  obtain ⟨hpat, hres⟩ := h
  constructor
  · simp only [addLine]
    by_cases hc : trimTrailingWS raw.data = [] ∨ (trimTrailingWS raw.data).head? = some '#'
    · rw [if_pos hc]
      exact hpat
    · rw [if_neg hc]
      have hp := getOrCompile_patWF st raw.data hpat
      rcases hg : getOrCompile st raw.data with ⟨r, st1⟩
      rw [hg] at hp
      exact hp
  · simp only [addLine]
    by_cases hc : trimTrailingWS raw.data = [] ∨ (trimTrailingWS raw.data).head? = some '#'
    · rw [if_pos hc]
      intro np d hm
      simp at hm
    · rw [if_neg hc]
      rcases hg : getOrCompile st raw.data with ⟨r, st1⟩
      intro np d hm
      simp at hm

theorem facadeTestD_fst (st : Facade) (p : String) (h : WF st) :
    (facadeTestD st p).1 = (normalize p).map (evaluate st.rules) := by
  obtain ⟨hpat, hres⟩ := h
  unfold facadeTestD
  cases hn : normalize p with
  | error e => rfl
  | ok np =>
    cases hl : alookup st.resCache np with
    | none => simp [hl, Except.map]
    | some d =>
      have hd := hres np d (alookup_mem _ _ _ hl)
      simp [hl, hd, Except.map]

theorem facadeTestD_state (st : Facade) (p : String) (h : WF st) :
    WF (facadeTestD st p).2 ∧ (facadeTestD st p).2.rules = st.rules ∧
      (facadeTestD st p).2.patCache = st.patCache := by
  obtain ⟨hpat, hres⟩ := h
  unfold facadeTestD
  cases hn : normalize p with
  | error e => exact ⟨⟨hpat, hres⟩, rfl, rfl⟩
  | ok np =>
    cases hl : alookup st.resCache np with
    | some d =>
      simp only [hl]
      exact ⟨⟨hpat, hres⟩, trivial, trivial⟩
    | none =>
      simp only [hl]
      refine ⟨⟨hpat, ?_⟩, rfl, rfl⟩
      intro np2 d2 hm
      unfold insertRes at hm
      simp only [] at hm
      rw [List.mem_append] at hm
      cases hm with
      | inl hmm =>
        have hmem : (np2, d2) ∈ st.resCache := by
          by_cases hlen : st.capacity ≤ st.resCache.length
          · rw [if_pos hlen] at hmm
            exact List.mem_of_mem_drop hmm
          · rw [if_neg hlen] at hmm
            exact hmm
        exact hres np2 d2 hmem
      | inr hmm =>
        simp at hmm
        rw [hmm.1, hmm.2]
        rfl

theorem facadeIgnores_fst (st : Facade) (p : String) (h : WF st) :
    (facadeIgnores st p).1 = (normalize p).map (fun np => (evaluate st.rules np).ignored) := by
  unfold facadeIgnores
  have h1 := facadeTestD_fst st p h
  rcases hg : facadeTestD st p with ⟨r, st1⟩
  rw [hg] at h1
  simp only [] at h1
  simp only []
  rw [h1]
  cases normalize p <;> rfl

theorem facadeIgnores_state (st : Facade) (p : String) (h : WF st) :
    WF (facadeIgnores st p).2 ∧ (facadeIgnores st p).2.rules = st.rules ∧
      (facadeIgnores st p).2.patCache = st.patCache := by
  unfold facadeIgnores
  have h1 := facadeTestD_state st p h
  rcases hg : facadeTestD st p with ⟨r, st1⟩
  rw [hg] at h1
  exact h1

theorem loopN_count {σ : Type} (g : σ → σ) (n : Nat) :
    ∀ (p : σ × Nat),
      (loopN (fun q : σ × Nat => (g q.1, q.2 + 1)) n p).2 = p.2 + n := by
  induction n with
  | zero => intro p; simp [loopN]
  | succ m ih =>
    intro p
    rw [loopN]
    rw [ih]
    simp
    omega
theorem WF_empty (capacity : Nat) : WF (emptyFacade capacity) := by
  constructor <;> intro a b h <;> simp [emptyFacade] at h

theorem filterGo_spec (ps : List String) :
    ∀ st : Facade, WF st →
      (filterGo st ps).1 = ps.filter (fun p =>
        match (normalize p).map (fun np => (evaluate st.rules np).ignored) with
        | Except.ok b => !b
        | Except.error _ => false) ∧
      WF (filterGo st ps).2 := by
  induction ps with
  | nil => intro st h; exact ⟨rfl, h⟩
  | cons p ps ih =>
    intro st h
    have hfst := facadeIgnores_fst st p h
    have hstate := facadeIgnores_state st p h
    rcases hg : facadeIgnores st p with ⟨r, st1⟩
    rw [hg] at hfst hstate
    simp only [] at hfst hstate
    obtain ⟨hwf1, hrules1, hpc1⟩ := hstate
    have ihh := ih st1 hwf1
    rcases hrec : filterGo st1 ps with ⟨rest, st2⟩
    rw [hrec] at ihh
    simp only [] at ihh
    obtain ⟨hrest, hwf2⟩ := ihh
    rw [hrules1] at hrest
    unfold filterGo
    rw [hg]
    simp only []
    rw [hrec]
    constructor
    · rw [List.filter_cons]
      rw [← hfst]
      cases r with
      | error e => simp [hrest]
      | ok b => cases b <;> simp [hrest]
    · cases r with
      | error e => exact hwf2
      | ok b => cases b <;> exact hwf2

/-! ## Claim theorems: concrete pattern semantics -/

/-- C1: with patterns added in the order `*.js` then `!important.js`,
`ignores "important.js"` is false and `ignores "other.js"` is true — a
later negated rule re-includes a path matched by an earlier rule. -/
theorem c1_negation_override :
    (facadeIgnores (addLine (addLine (emptyFacade 1000) "*.js") "!important.js")
        "important.js").1 = Except.ok false ∧
    (facadeIgnores (addLine (addLine (emptyFacade 1000) "*.js") "!important.js")
        "other.js").1 = Except.ok true := by
  exact ⟨rfl, rfl⟩

/-- C2: with patterns added in the order `build/` then `!build/keep.txt`,
`ignores "build/keep.txt"` is true — a negating rule cannot re-include a
path whose ancestor directory is excluded by a directory-only rule. -/
theorem c2_directory_blocks_negation :
    (facadeIgnores (addLine (addLine (emptyFacade 1000) "build/") "!build/keep.txt")
        "build/keep.txt").1 = Except.ok true := by
  exact rfl

/-- C4: with the single anchored pattern `/root-only.js`,
`ignores "root-only.js"` is true and `ignores "src/root-only.js"` is
false — an anchored rule matches only at the path root. -/
theorem c4_anchored_matches_root_only :
    (facadeIgnores (addLine (emptyFacade 1000) "/root-only.js")
        "root-only.js").1 = Except.ok true ∧
    (facadeIgnores (addLine (emptyFacade 1000) "/root-only.js")
        "src/root-only.js").1 = Except.ok false := by
  exact ⟨rfl, rfl⟩

/-- C5: with the single pattern `foo/**/*.bar`, `ignores "foo/bar/baz.bar"`
and `ignores "foo/a/b/c.bar"` are true while `ignores "foo.bar"` is
false — a whole-segment `**` matches zero or more full path segments and
never crosses into a non-segmented name. -/
theorem c5_globstar_whole_segments :
    (facadeIgnores (addLine (emptyFacade 1000) "foo/**/*.bar")
        "foo/bar/baz.bar").1 = Except.ok true ∧
    (facadeIgnores (addLine (emptyFacade 1000) "foo/**/*.bar")
        "foo/a/b/c.bar").1 = Except.ok true ∧
    (facadeIgnores (addLine (emptyFacade 1000) "foo/**/*.bar")
        "foo.bar").1 = Except.ok false := by
  exact ⟨rfl, rfl, rfl⟩

/-- C7: pattern compilation is total and permissive: an escape sequence —
recognized or not — compiles to the literal escaped character, and `add`
never fails on pattern content: on every raw line it returns a facade,
appending either nothing (blank/comment line) or exactly one rule. -/
theorem c7_compile_never_fails :
    (∀ (c : Char) (rest : List Char),
        parseToks ('\\' :: c :: rest) = Tok.lit c :: parseToks rest) ∧
    (∀ (st : Facade) (raw : String),
        (addLine st raw).rules.length = st.rules.length ∨
        (addLine st raw).rules.length = st.rules.length + 1) := by
  constructor
  · exact parseToks_escape
  · intro st raw
    by_cases hc : trimTrailingWS raw.data = [] ∨ (trimTrailingWS raw.data).head? = some '#'
    · left
      simp only [addLine]
      rw [if_pos hc]
    · right
      simp only [addLine]
      rw [if_neg hc]
      have h1 := getOrCompile_rules st raw.data
      rcases hg : getOrCompile st raw.data with ⟨r, st1⟩
      rw [hg] at h1
      simp only at h1
      simp only [List.length_append, h1, List.length_cons, List.length_nil]

/-- C10: `benchmark name fn iterations` invokes `fn` exactly
`100 + iterations` times (100 untimed warmup invocations followed by
`iterations` timed ones) — counted here by instrumenting the state with an
invocation counter — and the returned record's `iterations` field equals
the `iterations` argument. -/
theorem c10_benchmark_invocations {σ : Type} :
    ∀ (name : String) (g : σ → σ) (iterations : Nat) (s : σ),
      ((benchmark name (fun p : σ × Nat => (g p.1, p.2 + 1)) iterations (s, 0)).2).2 =
          100 + iterations ∧
      (benchmark name (fun p : σ × Nat => (g p.1, p.2 + 1)) iterations (s, 0)).1.iterations =
          iterations := by
  intro name g iterations s
  constructor
  · show (loopN (fun q : σ × Nat => (g q.1, q.2 + 1)) iterations
        (loopN (fun q : σ × Nat => (g q.1, q.2 + 1)) 100 (s, 0))).2 = 100 + iterations
    rw [loopN_count g iterations]
    rw [loopN_count g 100]
  · rfl

/-! ## Claim C8: invalid path handling -/

theorem escAux_error :
    ∀ (L acc : List (List Char)),
      escAux acc.length L = true → normAux acc L = Except.error NormError.invalidPathError := by
  intro L
  induction L with
  | nil => intro acc h; simp [escAux] at h
  | cons s rest ih =>
    intro acc h
    rw [escAux] at h
    rw [normAux]
    by_cases h1 : s = [] ∨ s = ['.']
    · rw [if_pos h1] at h ⊢
      exact ih acc h
    · rw [if_neg h1] at h ⊢
      by_cases h2 : s = ['.', '.']
      · rw [if_pos h2] at h ⊢
        cases acc with
        | nil => rw [if_pos rfl]
        | cons a acc' =>
          rw [if_neg (by simp)] at h
          rw [if_neg (by simp)]
          simp only [List.length_cons, Nat.add_sub_cancel] at h
          exact ih acc' h
      · rw [if_neg h2] at h ⊢
        exact ih (s :: acc) (by simp only [List.length_cons]; exact h)

theorem normalize_escape (p : String) (h : escapesRoot p = true) :
    normalize p = Except.error NormError.invalidPathError := by
  unfold normalize normalizeChars
  rw [escAux_error (splitChars p.data) [] h]
  rfl

/-- C8: a parent-escaping path — one whose segment scan would traverse
above the matching root via a `..` segment — makes `normalize` fail with
InvalidPathError, and the failing `ignores`, `test` and `filter` calls
leave the facade (rule set and both caches) unchanged. -/
theorem c8_invalid_path (p : String) (h : escapesRoot p = true) :
    normalize p = Except.error NormError.invalidPathError ∧
    (∀ st : Facade, facadeIgnores st p = (Except.error NormError.invalidPathError, st)) ∧
    (∀ st : Facade, facadeTestD st p = (Except.error NormError.invalidPathError, st)) ∧
    (∀ (st : Facade) (ps : List String), p ∈ ps →
      facadeFilter st ps = Except.error NormError.invalidPathError) := by
  have hn := normalize_escape p h
  have ht : ∀ st : Facade, facadeTestD st p = (Except.error NormError.invalidPathError, st) := by
    intro st
    unfold facadeTestD
    rw [hn]
  refine ⟨hn, ?_, ht, ?_⟩
  · intro st
    unfold facadeIgnores
    rw [ht st]
    simp [Except.map]
  · intro st ps hmem
    unfold facadeFilter
    have hall : ps.all (fun q => (normalize q).isOk) = false := by
      rw [List.all_eq_false]
      exact ⟨p, hmem, by rw [hn]; simp [Except.isOk, Except.toBool]⟩
    rw [hall]
    rfl

/-- Closed witness for C8 at the concrete parent-escaping path "../a". -/
theorem c8_invalid_path_witness :
    escapesRoot "../a" = true ∧
    normalize "../a" = Except.error NormError.invalidPathError ∧
    facadeIgnores (emptyFacade 1000) "../a"
      = (Except.error NormError.invalidPathError, emptyFacade 1000) :=
  ⟨by rfl, (c8_invalid_path "../a" (by rfl)).1,
    (c8_invalid_path "../a" (by rfl)).2.1 (emptyFacade 1000)⟩

/-! ## Claim C6: filter -/

/-- C6: on every well-formed facade state, a successful `filter` call
returns exactly the subsequence of its inputs whose `ignores` answer is
false, in the original input order. -/
theorem c6_filter_subsequence (st : Facade) (ps : List String) (out : List String)
    (st' : Facade) (hwf : WF st) (hok : facadeFilter st ps = Except.ok (out, st')) :
    out = ps.filter (fun p =>
      match (facadeIgnores st p).1 with
      | Except.ok b => !b
      | Except.error _ => false) := by
  unfold facadeFilter at hok
  by_cases hall : ps.all (fun q => (normalize q).isOk) = true
  · rw [if_pos hall] at hok
    rw [Except.ok.injEq] at hok
    have hout : out = (filterGo st ps).1 := by rw [hok]
    rw [hout, (filterGo_spec ps st hwf).1]
    apply List.filter_congr
    intro x hx
    rw [facadeIgnores_fst st x hwf]
  · rw [if_neg hall] at hok
    cases hok

/-- Closed witness for C6 on the rule set of claim C1 and three concrete
paths. -/
theorem c6_filter_subsequence_witness :
    ["important.js", "b.txt"]
      = (["a.js", "important.js", "b.txt"].filter (fun p =>
          match (facadeIgnores (addLine (addLine (emptyFacade 1000) "*.js")
              "!important.js") p).1 with
          | Except.ok b => !b
          | Except.error _ => false)) :=
  c6_filter_subsequence
    (addLine (addLine (emptyFacade 1000) "*.js") "!important.js")
    ["a.js", "important.js", "b.txt"] ["important.js", "b.txt"]
    (filterGo (addLine (addLine (emptyFacade 1000) "*.js") "!important.js")
      ["a.js", "important.js", "b.txt"]).2
    (addLine_WF _ _ (addLine_WF _ _ (WF_empty 1000))) rfl

/-! ## Claim C3: cache transparency -/

theorem refRules_append (pats : List String) (s : String) :
    refRules (pats ++ [s]) = refRules pats ++ (parseLine s.data).toList := by
  unfold refRules
  rw [List.filterMap_append]
  congr 1

theorem runF_ref (ops : List Op) :
    ∀ (st : Facade) (pats : List String), WF st → st.rules = refRules pats →
      (runF st ops).1 = runRef pats ops := by
  induction ops with
  | nil => intro st pats _ _; rfl
  | cons op ops ih =>
    intro st pats hwf hrules
    cases op with
    | add s =>
      unfold runF runRef
      have hw1 := addLine_WF st s hwf
      have hr1 : (addLine st s).rules = refRules (pats ++ [s]) := by
        rw [addLine_rules st s hwf.1, hrules, refRules_append]
      have hihr := ih (addLine st s) (pats ++ [s]) hw1 hr1
      rcases hrec : runF (addLine st s) ops with ⟨os, st2⟩
      rw [hrec] at hihr
      simp only [] at hihr
      simp [hrec, hihr]
    | ig p =>
      unfold runF runRef
      have hfst := facadeIgnores_fst st p hwf
      have hstate := facadeIgnores_state st p hwf
      rcases hg : facadeIgnores st p with ⟨r, st1⟩
      rw [hg] at hfst hstate
      simp only [] at hfst hstate
      obtain ⟨hw1, hr1, hpc1⟩ := hstate
      have hihr := ih st1 pats hw1 (by rw [hr1, hrules])
      rcases hrec : runF st1 ops with ⟨os, st2⟩
      rw [hrec] at hihr
      simp only [] at hihr
      simp [hg, hrec, hihr, hfst, hrules]
    | tst p =>
      unfold runF runRef
      have hfst := facadeTestD_fst st p hwf
      have hstate := facadeTestD_state st p hwf
      rcases hg : facadeTestD st p with ⟨r, st1⟩
      rw [hg] at hfst hstate
      simp only [] at hfst hstate
      obtain ⟨hw1, hr1, hpc1⟩ := hstate
      have hihr := ih st1 pats hw1 (by rw [hr1, hrules])
      rcases hrec : runF st1 ops with ⟨os, st2⟩
      rw [hrec] at hihr
      simp only [] at hihr
      simp [hg, hrec, hihr, hfst, hrules]

/-- C3: every interleaved sequence of `add`, `ignores` and `test` calls
against a fresh facade of any result-cache capacity produces exactly the
answers of the cache-free reference that recompiles every pattern and
re-evaluates every path against the current rule set; in particular FIFO
eviction of result-cache entries never changes an answer, and after adding
a negation the next query reflects the new rule (the result cache is
cleared on every add). -/
theorem c3_cache_refinement (capacity : Nat) (ops : List Op) :
    (runF (emptyFacade capacity) ops).1 = runRef [] ops :=
  runF_ref ops (emptyFacade capacity) [] (WF_empty capacity) rfl

/-! ## Claim C9: normalization idempotence -/

theorem splitChars_ne_nil : ∀ cs : List Char, splitChars cs ≠ [] := by
  intro cs
  induction cs with
  | nil => simp [splitChars]
  | cons c rest ih =>
    rw [splitChars]
    by_cases hc : c = '/'
    · rw [if_pos hc]; simp
    · rw [if_neg hc]
      cases h : splitChars rest with
      | nil => simp
      | cons s r => simp

theorem splitChars_no_slash : ∀ (cs : List Char) (s : List Char),
    s ∈ splitChars cs → '/' ∉ s := by
  intro cs
  induction cs with
  | nil =>
    intro s hs
    simp [splitChars] at hs
    simp [hs]
  | cons c rest ih =>
    intro s hs
    rw [splitChars] at hs
    by_cases hc : c = '/'
    · rw [if_pos hc] at hs
      rcases List.mem_cons.mp hs with h | h
      · simp [h]
      · exact ih s h
    · rw [if_neg hc] at hs
      cases h : splitChars rest with
      | nil =>
        rw [h] at hs
        simp at hs
        simp [hs]
        exact fun hcc => hc hcc.symm
      | cons s0 r =>
        rw [h] at hs
        rcases List.mem_cons.mp hs with h2 | h2
        · subst h2
          intro hmem
          rcases List.mem_cons.mp hmem with h3 | h3
          · exact hc h3.symm
          · exact ih s0 (h ▸ List.mem_cons_self _ _) h3
        · exact ih s (h ▸ List.mem_cons_of_mem _ h2)

theorem splitChars_append_slash :
    ∀ cs : List Char, splitChars (cs ++ ['/']) = splitChars cs ++ [[]] := by
  intro cs
  induction cs with
  | nil => rfl
  | cons c rest ih =>
    rw [List.cons_append, splitChars, splitChars]
    by_cases hc : c = '/'
    · rw [if_pos hc, if_pos hc, ih]
      rfl
    · rw [if_neg hc, if_neg hc]
      cases h : splitChars rest with
      | nil => exact absurd h (splitChars_ne_nil rest)
      | cons s r =>
        rw [h] at ih
        rw [ih]
        rfl

theorem splitChars_prepend :
    ∀ (s cs : List Char), '/' ∉ s → ∀ t r, splitChars cs = t :: r →
      splitChars (s ++ cs) = (s ++ t) :: r := by
  intro s
  induction s with
  | nil => intro cs _ t r h; simpa using h
  | cons c s' ih =>
    intro cs hns t r h
    have hc : c ≠ '/' := fun hcc => hns (hcc ▸ List.mem_cons_self _ _)
    rw [List.cons_append, splitChars]
    rw [if_neg (fun hcc => hc hcc)]
    rw [ih cs (fun hm => hns (List.mem_cons_of_mem _ hm)) t r h]
    rfl

theorem joinSegs_split :
    ∀ segs : List (List Char), segs ≠ [] → (∀ s ∈ segs, '/' ∉ s) →
      splitChars (joinSegs segs) = segs := by
  intro segs
  induction segs with
  | nil => intro h; exact absurd rfl h
  | cons s rest ih =>
    intro _ hns
    cases rest with
    | nil =>
      rw [joinSegs]
      have := splitChars_prepend s [] (hns s (List.mem_cons_self _ _)) [] [] rfl
      simpa using this
    | cons s2 r2 =>
      rw [joinSegs]
      have hrec := ih (by simp) (fun q hq => hns q (List.mem_cons_of_mem _ hq))
      have hsplit : splitChars ('/' :: joinSegs (s2 :: r2)) = [] :: (s2 :: r2) := by
        rw [splitChars, if_pos rfl, hrec]
      have := splitChars_prepend s ('/' :: joinSegs (s2 :: r2))
        (hns s (List.mem_cons_self _ _)) [] (s2 :: r2) hsplit
      simpa using this

theorem normAux_skip_nil (acc : List (List Char)) (L : List (List Char)) :
    normAux acc ([] :: L) = normAux acc L := by
  rw [normAux, if_pos (Or.inl rfl)]

theorem normAux_valid_append :
    ∀ (L acc t : List (List Char)), (∀ s ∈ L, validSeg s) →
      normAux acc (L ++ t) = normAux (L.reverse ++ acc) t := by
  intro L
  induction L with
  | nil => intro acc t _; simp
  | cons s rest ih =>
    intro acc t hv
    obtain ⟨hs1, hs2, hs3, _⟩ := hv s (List.mem_cons_self _ _)
    rw [List.cons_append, normAux]
    rw [if_neg (by simp [hs1, hs2])]
    rw [if_neg hs3]
    rw [ih (s :: acc) t (fun q hq => hv q (List.mem_cons_of_mem _ hq))]
    congr 1
    simp

theorem normAux_valid_ok (L : List (List Char)) (h : ∀ s ∈ L, validSeg s) :
    normAux [] L = Except.ok L := by
  have := normAux_valid_append L [] [] h
  simp at this
  rw [this, normAux]
  simp

theorem normAux_all_valid :
    ∀ (L acc segs : List (List Char)), (∀ s ∈ L, '/' ∉ s) →
      (∀ s ∈ acc, validSeg s) → normAux acc L = Except.ok segs →
      ∀ s ∈ segs, validSeg s := by
  intro L
  induction L with
  | nil =>
    intro acc segs _ hacc h
    rw [normAux, Except.ok.injEq] at h
    subst h
    intro s hs
    exact hacc s (List.mem_reverse.mp hs)
  | cons q rest ih =>
    intro acc segs hns hacc h
    rw [normAux] at h
    by_cases h1 : q = [] ∨ q = ['.']
    · rw [if_pos h1] at h
      exact ih acc segs (fun x hx => hns x (List.mem_cons_of_mem _ hx)) hacc h
    · rw [if_neg h1] at h
      by_cases h2 : q = ['.', '.']
      · rw [if_pos h2] at h
        by_cases h3 : acc = []
        · rw [if_pos h3] at h
          cases h
        · rw [if_neg h3] at h
          exact ih acc.tail segs (fun x hx => hns x (List.mem_cons_of_mem _ hx))
            (fun x hx => hacc x (List.mem_of_mem_tail hx)) h
      · rw [if_neg h2] at h
        have hq : validSeg q := by
          rw [not_or] at h1
          exact ⟨h1.1, h1.2, h2, hns q (List.mem_cons_self _ _)⟩
        refine ih (q :: acc) segs (fun x hx => hns x (List.mem_cons_of_mem _ hx)) ?_ h
        intro x hx
        rcases List.mem_cons.mp hx with h4 | h4
        · subst h4; exact hq
        · exact hacc x h4

theorem joinSegs_cons_eq (s : List Char) (rest : List (List Char)) :
    ∃ X, joinSegs (s :: rest) = s ++ X := by
  cases rest with
  | nil => exact ⟨[], by rw [joinSegs]; simp⟩
  | cons s2 r2 => exact ⟨'/' :: joinSegs (s2 :: r2), by rw [joinSegs]⟩

theorem getLast_join :
    ∀ segs : List (List Char), segs ≠ [] → (∀ s ∈ segs, s ≠ [] ∧ '/' ∉ s) →
      ∀ pre : List Char, ∃ c, (pre ++ joinSegs segs).getLast? = some c ∧ c ≠ '/' := by
  intro segs
  induction segs with
  | nil => intro h; exact absurd rfl h
  | cons s rest ih =>
    intro _ hv pre
    cases rest with
    | nil =>
      obtain ⟨hs1, hs2⟩ := hv s (List.mem_cons_self _ _)
      refine ⟨s.getLast hs1, ?_, ?_⟩
      · rw [joinSegs]
        rw [List.getLast?_append, List.getLast?_eq_getLast s hs1]
        rfl
      · exact fun hc => hs2 (hc ▸ List.getLast_mem hs1)
    | cons s2 r2 =>
      have hrec := ih (by simp) (fun q hq => hv q (List.mem_cons_of_mem _ hq))
        (pre ++ s ++ ['/'])
      obtain ⟨c, hc1, hc2⟩ := hrec
      refine ⟨c, ?_, hc2⟩
      rw [joinSegs]
      rw [← hc1]
      congr 1
      simp

theorem serialize_normalize (n : NPath) (hv : ∀ s ∈ n.segs, validSeg s)
    (hd : n.isDir = true → n.segs ≠ []) :
    normalizeChars (serializeChars n) = Except.ok n := by
  obtain ⟨nl, ns, nd⟩ := n
  simp only [] at hv hd
  cases ns with
  | nil =>
    have hnd : nd = false := by
      cases nd
      · rfl
      · exact absurd rfl (hd rfl)
    subst hnd
    cases nl <;> rfl
  | cons s rest =>
    have hvs : ∀ q ∈ s :: rest, validSeg q := hv
    have hnos : ∀ q ∈ s :: rest, '/' ∉ q := fun q hq => (hvs q hq).2.2.2
    have hnen : ∀ q ∈ s :: rest, q ≠ [] ∧ '/' ∉ q :=
      fun q hq => ⟨(hvs q hq).1, (hvs q hq).2.2.2⟩
    have hbase : splitChars (joinSegs (s :: rest)) = s :: rest :=
      joinSegs_split _ (by simp) hnos
    have hPJ : splitChars ((if nl = true then ['/'] else []) ++ joinSegs (s :: rest))
        = (if nl = true then [[]] else []) ++ (s :: rest) := by
      cases nl
      · simpa using hbase
      · simp only [if_pos]
        rw [show ((['/'] : List Char) ++ joinSegs (s :: rest))
            = '/' :: joinSegs (s :: rest) from rfl]
        rw [splitChars, if_pos rfl, hbase]
        rfl
    have hfull : splitChars (serializeChars ⟨nl, s :: rest, nd⟩)
        = ((if nl = true then [[]] else []) ++ (s :: rest)) ++
            (if nd = true then [[]] else []) := by
      unfold serializeChars
      simp only []
      cases nd
      · simpa using hPJ
      · simp only [if_pos]
        rw [splitChars_append_slash, hPJ]
    have hcore : ∀ t, t = [] ∨ t = [[]] →
        normAux [] ((s :: rest) ++ t) = Except.ok (s :: rest) := by
      intro t ht
      rw [normAux_valid_append (s :: rest) [] t hvs]
      have hrev : normAux ((s :: rest).reverse ++ []) [] = Except.ok (s :: rest) := by
        rw [normAux]
        simp
      rcases ht with rfl | rfl
      · exact hrev
      · rw [normAux_skip_nil]
        exact hrev
    have hna : normAux [] (((if nl = true then [[]] else []) ++ (s :: rest)) ++
        (if nd = true then [[]] else [])) = Except.ok (s :: rest) := by
      cases nl <;> cases nd
      · simpa using hcore [] (Or.inl rfl)
      · simpa using hcore [[]] (Or.inr rfl)
      · simp only [Bool.false_eq_true, if_false, if_pos, List.append_nil,
          List.singleton_append, List.cons_append, List.nil_append]
        rw [normAux_skip_nil]
        simpa using hcore [] (Or.inl rfl)
      · simp only [if_pos, List.singleton_append, List.cons_append, List.nil_append]
        rw [normAux_skip_nil]
        exact hcore [[]] (Or.inr rfl)
    have hhead : decide ((serializeChars ⟨nl, s :: rest, nd⟩).head? = some '/') = nl := by
      unfold serializeChars
      simp only []
      cases nl
      · obtain ⟨X, hX⟩ := joinSegs_cons_eq s rest
        obtain ⟨hs1, -, -, hs4⟩ := hvs s (List.mem_cons_self _ _)
        cases s with
        | nil => exact absurd rfl hs1
        | cons c0 s0 =>
          have hc0 : c0 ≠ '/' := fun hc => hs4 (by rw [← hc]; exact List.mem_cons_self _ _)
          simp [hX, hc0]
      · simp
    have hlast : decide ((serializeChars ⟨nl, s :: rest, nd⟩).getLast? = some '/') = nd := by
      unfold serializeChars
      simp only []
      cases nd
      · obtain ⟨c, hc1, hc2⟩ := getLast_join (s :: rest) (by simp) hnen
          (if nl = true then ['/'] else [])
        simp only [Bool.false_eq_true, if_false, List.append_nil]
        rw [hc1]
        simp [hc2]
      · simp [List.getLast?_concat]
    simp only [normalizeChars]
    rw [hfull, hna]
    simp only [Except.map]
    simp [hhead, hlast]

/-- C9: normalization is idempotent: re-serializing the result of a
successful `normalize` and normalizing again yields the same normalized
path: `normalize (serialize (normalize p)) = normalize p`. -/
theorem c9_normalize_idempotent (p : String) (n : NPath)
    (h : normalize p = Except.ok n) :
    normalize (serialize n) = normalize p := by
  rw [h]
  show normalizeChars (serializeChars n) = Except.ok n
  unfold normalize normalizeChars at h
  cases hna0 : normAux [] (splitChars p.data) with
  | error e =>
    rw [hna0] at h
    simp [Except.map] at h
  | ok segs0 =>
    rw [hna0] at h
    simp only [Except.map, Except.ok.injEq] at h
    have hvalid : ∀ s ∈ segs0, validSeg s :=
      normAux_all_valid (splitChars p.data) [] segs0
        (fun s hs => splitChars_no_slash p.data s hs) (by simp) hna0
    subst h
    apply serialize_normalize
    · exact hvalid
    · intro hdir
      simp only [] at hdir ⊢
      rw [Bool.and_eq_true] at hdir
      have h2 := hdir.2
      intro hempty
      subst hempty
      simp at h2

/-- Closed witness for C9 at the concrete path "a/./b//c/". -/
theorem c9_normalize_idempotent_witness :
    normalize "a/./b//c/"
      = Except.ok ({ lead := false, segs := [['a'], ['b'], ['c']], isDir := true } : NPath) ∧
    normalize (serialize ({ lead := false, segs := [['a'], ['b'], ['c']], isDir := true } : NPath))
      = normalize "a/./b//c/" :=
  ⟨by rfl, c9_normalize_idempotent "a/./b//c/"
    { lead := false, segs := [['a'], ['b'], ['c']], isDir := true } (by rfl)⟩

end NodeIgnore
